import Mathlib

/-!
Shallow embedding of the fpc image-grid extractor (src/lib.rs, src/grid_finder.rs).

Modelling conventions:
* An image is its dimensions together with a total pixel function; the Rust
  `DynamicImage` is read through `get_pixel`/`put_pixel` only, and `bounds()`
  always returns `(0, 0, width, height)`.
* Rust `u32` arithmetic is modelled by `Nat` (with `-` the truncated
  subtraction), `i32` by `Int`; `f64` values are modelled by exact rationals,
  with `as u32` casts modelled by `f64ToU32` (truncation toward zero,
  saturating) and `f64::round` by `rround` (round half away from zero, which
  for the non-negative quantities appearing here is `floor (q + 1/2)`).
* Fallible Rust functions returning `Result` are modelled with `Except`.
* Iterators over `a..b` become `List.range' a (b - a)`; `.rev()` becomes
  `List.reverse`; `Iterator::find` becomes `List.find?`.
* The pixel-resampling kernel of `image::imageops::resize` and the alpha
  blending of `image::imageops::overlay` are floating-point library code whose
  per-pixel values no claim depends on; they are taken as parameters
  (`resample`, `blend`) so every theorem below holds for all of them.
-/

namespace Fpc

/-- One RGBA pixel; channel `a` is the alpha channel (`channels()[3]`). -/
structure Rgba where
  r : Nat
  g : Nat
  b : Nat
  a : Nat
deriving DecidableEq, Repr

/-- An image: dimensions plus a total pixel lookup (Rust `DynamicImage`). -/
structure Image where
  width : Nat
  height : Nat
  pix : Nat → Nat → Rgba

/-- Rust `std::ops::Range<u32>`: half-open interval.  The Rust field `end` is
a Lean keyword, so it is called `stop` here. -/
structure Range where
  start : Nat
  stop : Nat
deriving DecidableEq, Repr

/-- `image::math::Rect`. -/
structure Rect where
  x : Nat
  y : Nat
  width : Nat
  height : Nat
deriving DecidableEq, Repr

/-- `FpcError` from src/lib.rs (payloads irrelevant to the claims omitted). -/
inductive FpcError where
  | MissingBorder (edge : String)
  | BlankNotFound
  | ImageError
  | Unknown
deriving DecidableEq, Repr

/-- `pub type Result<T> = std::result::Result<T, FpcError>`. -/
abbrev FpcResult (α : Type) := Except FpcError α

deriving instance DecidableEq for Except

/-- `transparent_pixel` (src/lib.rs): alpha channel equals zero. -/
def transparent_pixel (img : Image) (x y : Nat) : Bool :=
  (img.pix x y).a == 0

/-- `Option::ok_or` specialised to `FpcError`, modelling `.ok_or(err)?`. -/
def ok_or {α : Type} (o : Option α) (e : FpcError) : FpcResult α :=
  match o with
  | some a => .ok a
  | none => .error e

/-- `find_pixels` (grid_finder.rs): keep the coordinates satisfying the
predicate (`flat_map` over an `Option` is `filterMap`). -/
def find_pixels (range : List Nat) (predicate : Nat → Bool) : List Nat :=
  range.filterMap fun i => if predicate i then some i else none

/-- One step of the fold inside `group_sequences` (grid_finder.rs): extend the
last range when `i` equals its (exclusive) end, otherwise push `i..i+1`. -/
def groupStep (acc : List Range) (i : Nat) : List Range :=
  match acc.getLast? with
  | some range =>
    if range.stop == i then
      acc.dropLast ++ [⟨range.start, range.stop + 1⟩]
    else
      acc ++ [⟨i, i + 1⟩]
  | none => [⟨i, i + 1⟩]

/-- `group_sequences` (grid_finder.rs): fold coordinates into contiguous
half-open ranges. -/
def group_sequences (iter : List Nat) : List Range :=
  iter.foldl groupStep []

/-- `find_grid_line_ranges` (grid_finder.rs). -/
def find_grid_line_ranges (range : List Nat) (is_blank : Nat → Bool) : List Range :=
  group_sequences (find_pixels range (fun i => !is_blank i))

/-- `find_bordered_bounds` (grid_finder.rs).  Note: the failed forward
horizontal (left-edge) scan is reported by the source as
`MissingBorder("top")`, not `"left"`. -/
def find_bordered_bounds (img : Image) : FpcResult Rect := do
  let center_x := img.width / 2
  let center_y := img.height / 2
  let left ← ok_or ((List.range img.width).find?
      fun xx => !transparent_pixel img xx center_y) (.MissingBorder "top")
  let right ← ok_or ((List.range img.width).reverse.find?
      fun xx => !transparent_pixel img xx center_y) (.MissingBorder "right")
  let top ← ok_or ((List.range img.height).find?
      fun yy => !transparent_pixel img center_x yy) (.MissingBorder "top")
  let bottom ← ok_or ((List.range img.height).reverse.find?
      fun yy => !transparent_pixel img center_x yy) (.MissingBorder "bottom")
  .ok ⟨left, top, right - left + 1, bottom - top + 1⟩

/-- `scan_range` (grid_finder.rs). -/
def scan_range (range : List Nat) (predicate : Nat → Bool) : FpcResult Nat :=
  ok_or (range.find? predicate) .BlankNotFound

/-- `find_border_widths` (grid_finder.rs).  Returns
`(left, top, right, bottom)` thicknesses.  The scan column is
`center_x = bounds.width / 2` and the scan row is
`center_y = bounds.height / 2`, exactly as in the source (not offset by
`bounds.x`/`bounds.y`). -/
def find_border_widths (img : Image) (bounds : Rect) : FpcResult (Nat × Nat × Nat × Nat) := do
  let x := bounds.x
  let y := bounds.y
  let w := bounds.width
  let h := bounds.height
  let center_x := w / 2
  let center_y := h / 2
  let top_thickness ← scan_range (List.range' y h)
      fun yy => transparent_pixel img center_x yy
  let bottom_found ← scan_range (List.range' y h).reverse
      fun yy => transparent_pixel img center_x yy
  let bottom_thickness := h - bottom_found - 1
  let left_thickness ← scan_range (List.range' x w)
      fun xx => transparent_pixel img xx center_y
  let right_found ← scan_range (List.range' x w).reverse
      fun xx => transparent_pixel img xx center_y
  let right_thickness := w - right_found - 1
  .ok (left_thickness, top_thickness, right_thickness, bottom_thickness)

/-- Border-width measurement as the specification describes it, for
comparison with the source definition `find_border_widths`: the scan column is
`bounds.x + bounds.width / 2` (the centerline of the border rectangle), the
top (left) thickness is the distance from `bounds.y` (`bounds.x`) to the
first blank pixel, and the bottom (right) thickness converts the absolute
scan position as `(dimension - found_offset - 1)`. -/
def find_border_widths_spec (img : Image) (bounds : Rect) : FpcResult (Nat × Nat × Nat × Nat) := do
  let x := bounds.x
  let y := bounds.y
  let w := bounds.width
  let h := bounds.height
  let center_x := x + w / 2
  let center_y := y + h / 2
  let top_found ← scan_range (List.range' y h)
      fun yy => transparent_pixel img center_x yy
  let top_thickness := top_found - y
  let bottom_found ← scan_range (List.range' y h).reverse
      fun yy => transparent_pixel img center_x yy
  let bottom_thickness := h - bottom_found - 1
  let left_found ← scan_range (List.range' x w)
      fun xx => transparent_pixel img xx center_y
  let left_thickness := left_found - x
  let right_found ← scan_range (List.range' x w).reverse
      fun xx => transparent_pixel img xx center_y
  let right_thickness := w - right_found - 1
  .ok (left_thickness, top_thickness, right_thickness, bottom_thickness)

/-- The `inside_border_bounds` rectangle built in `find_grid_cells`
(grid_finder.rs, lines 45-50); `ws` is `(left, top, right, bottom)`. -/
def inside_border_bounds (bb : Rect) (ws : Nat × Nat × Nat × Nat) : Rect :=
  ⟨ws.1, ws.2.1, bb.width - ws.1 - ws.2.2.1, bb.height - ws.2.1 - ws.2.2.2⟩

/-- The vertical grid-line ranges computed in `find_grid_cells`. -/
def vert_grid_line_ranges (img : Image) (bb inside : Rect) : List Range :=
  find_grid_line_ranges (List.range' bb.x bb.width)
    fun xx => transparent_pixel img xx inside.y

/-- The horizontal grid-line ranges computed in `find_grid_cells`. -/
def horiz_grid_line_ranges (img : Image) (bb inside : Rect) : List Range :=
  find_grid_line_ranges (List.range' bb.y bb.height)
    fun yy => transparent_pixel img inside.x yy

/-- The double loop of `find_grid_cells` (grid_finder.rs, lines 59-71):
`tuple_windows` over the horizontal ranges outside, over the vertical ranges
inside, pushing one `Rect` per pair of pairs. -/
def gridRects (horiz vert : List Range) : List Rect :=
  (horiz.zip horiz.tail).flatMap fun tb =>
    (vert.zip vert.tail).map fun lr =>
      ⟨lr.1.stop, tb.1.stop, lr.2.start - lr.1.stop, tb.2.start - tb.1.stop⟩

/-- `find_grid_cells` (grid_finder.rs). -/
def find_grid_cells (img : Image) : FpcResult (List Rect) := do
  let bordered_bounds ← find_bordered_bounds img
  let ws ← find_border_widths img bordered_bounds
  let inside := inside_border_bounds bordered_bounds ws
  .ok (gridRects (horiz_grid_line_ranges img bordered_bounds inside)
        (vert_grid_line_ranges img bordered_bounds inside))

/-! ### src/lib.rs: the per-cell transform pipeline -/

/-- `u32::MAX`. -/
def u32max : Nat := 2 ^ 32 - 1

/-- A Rust `expr as u32` cast applied to a non-NaN `f64` value, with the
`f64` modelled by an exact rational: truncate toward zero and saturate to
the `u32` range. -/
def f64ToU32 (q : ℚ) : Nat :=
  min (Int.toNat ⌊q⌋) u32max

/-- `f64::round` (round half away from zero) followed by an integral cast,
for the non-negative quantities used by `resize_dimensions`. -/
def rround (q : ℚ) : Nat :=
  Int.toNat ⌊q + 1 / 2⌋

/-- `DynamicImage::crop_imm` from the image crate: the requested rectangle is
clamped to the image (`crop_dimms`), and pixels are read at the offset. -/
def crop_imm (img : Image) (x y width height : Nat) : Image :=
  let x2 := min x img.width
  let y2 := min y img.height
  let height2 := min height (img.height - y2)
  let width2 := min width (img.width - x2)
  ⟨width2, height2, fun i j => img.pix (x2 + i) (y2 + j)⟩

/-- `scale_to_constraints` (lib.rs).  The Rust code mutates `maybe_width` and
`maybe_height` inside the shrink branch (`scale = height / maybe_height`,
integer division); here the two assignments are expressed as conditionals on
the same test.  `(maybe_width as f64 * aspect_ratio) as u32` becomes
`f64ToU32`. -/
def scale_to_constraints (img : Image) (bounds : Nat × Nat × Nat × Nat)
    (aspect_ratio : ℚ) (max_width : Nat) : FpcResult Image :=
  let x := bounds.1
  let y := bounds.2.1
  let width := bounds.2.2.1
  let height := bounds.2.2.2
  let mw0 := min width max_width
  let mh0 := f64ToU32 ((mw0 : ℚ) * aspect_ratio)
  let maybe_width := if height < mh0 then mw0 * (height / mh0) else mw0
  let maybe_height := if height < mh0 then mh0 * (height / mh0) else mh0
  .ok (crop_imm img (x + (width - maybe_width) / 2)
        (y + (height - maybe_height) / 2) maybe_width maybe_height)

/-- The squared distance `x_offset * x_offset + y_offset * y_offset` of
`round_a_corner`, computed with `i32` offsets (exact `Int` here) and read
back as a `u32`. -/
def sq_dist (cx cy x y : Nat) : Nat :=
  (((x : Int) - cx) * ((x : Int) - cx) + ((y : Int) - cy) * ((y : Int) - cy)).toNat

/-- `round_a_corner` (lib.rs).  The double loop writes `Rgba([0,0,0,0])` at
exactly the in-range coordinates whose squared distance from `center_point`
exceeds `corner_radius_px * corner_radius_px`; each write depends only on the
coordinate, so the loop is embedded pointwise. -/
def round_a_corner (img : Image) (x_range y_range : Range)
    (corner_radius_px : Nat) (center_point : Nat × Nat) : Image :=
  let squared := corner_radius_px * corner_radius_px
  { img with pix := fun x y =>
      if x_range.start ≤ x ∧ x < x_range.stop ∧ y_range.start ≤ y ∧ y < y_range.stop ∧
          squared < sq_dist center_point.1 center_point.2 x y
      then ⟨0, 0, 0, 0⟩
      else img.pix x y }

/-- `round_the_corners` (lib.rs).  `bounds()` of a `DynamicImage` is
`(0, 0, width, height)`, so `x = y = 0` below; the four `round_a_corner`
calls mutate the clone in sequence. -/
def round_the_corners (img : Image) (corner_radius_px : Nat) : FpcResult Image :=
  let width := img.width
  let height := img.height
  let i1 := round_a_corner img ⟨0, corner_radius_px⟩ ⟨0, corner_radius_px⟩
      corner_radius_px (corner_radius_px, corner_radius_px)
  let i2 := round_a_corner i1 ⟨width - corner_radius_px, width⟩ ⟨0, corner_radius_px⟩
      corner_radius_px (width - corner_radius_px, corner_radius_px)
  let i3 := round_a_corner i2 ⟨0, corner_radius_px⟩ ⟨height - corner_radius_px, height⟩
      corner_radius_px (corner_radius_px, height - corner_radius_px)
  let i4 := round_a_corner i3 ⟨width - corner_radius_px, width⟩
      ⟨height - corner_radius_px, height⟩
      corner_radius_px (width - corner_radius_px, height - corner_radius_px)
  .ok i4

/-- `image::math::utils::resize_dimensions` with `fill = false`, as called by
`DynamicImage::resize`: scale both dimensions by the smaller of the two
ratios so the result fits inside `nwidth × nheight` while preserving the
source aspect ratio.  `f64` arithmetic is modelled by exact rationals. -/
def resize_dimensions (width height nwidth nheight : Nat) : Nat × Nat :=
  let wratio : ℚ := (nwidth : ℚ) / width
  let hratio : ℚ := (nheight : ℚ) / height
  let ratio := min wratio hratio
  let nw := max (rround ((width : ℚ) * ratio)) 1
  let nh := max (rround ((height : ℚ) * ratio)) 1
  if u32max < nw then
    let ratio2 : ℚ := (u32max : ℚ) / width
    (u32max, max (rround ((height : ℚ) * ratio2)) 1)
  else if u32max < nh then
    let ratio2 : ℚ := (u32max : ℚ) / height
    (max (rround ((width : ℚ) * ratio2)) 1, u32max)
  else (nw, nh)

/-- `DynamicImage::resize` from the image crate: returns the image unchanged
when the requested box equals its dimensions, otherwise resamples to the
aspect-preserving `resize_dimensions` box.  The resampling kernel (Triangle
filter, floating point) is the parameter `resample`, applied at the computed
target dimensions. -/
def resize (resample : Image → Nat × Nat → Nat → Nat → Rgba)
    (img : Image) (nwidth nheight : Nat) : Image :=
  if nwidth = img.width ∧ nheight = img.height then img
  else
    let d := resize_dimensions img.width img.height nwidth nheight
    ⟨d.1, d.2, resample img d⟩

/-- `rescale_to_72dpi_1in` (lib.rs): `new_width = (1.5 * 72.0) as u32`,
target height `(new_width as f64 * aspect_ratio) as u32`, Triangle filter. -/
def rescale_to_72dpi_1in (resample : Image → Nat × Nat → Nat → Nat → Rgba)
    (aspect_ratio : ℚ) (rounded_image : Image) : Image :=
  let new_width := f64ToU32 ((3 / 2 : ℚ) * 72)
  resize resample rounded_image new_width
    (f64ToU32 ((new_width : ℚ) * aspect_ratio))

/-- `image::imageops::overlay(bottom, top, 0, 0)`: blend `top` onto `bottom`
at the origin, clipped to both images.  The per-pixel alpha blending
(floating point in the image crate) is the parameter `blend`. -/
def overlayImage (blend : Rgba → Rgba → Rgba) (bottom top : Image) : Image :=
  { bottom with pix := fun x y =>
      if x < bottom.width ∧ x < top.width ∧ y < bottom.height ∧ y < top.height
      then blend (bottom.pix x y) (top.pix x y)
      else bottom.pix x y }

/-- `make_sub_image` (lib.rs): a `rect.width × rect.height` canvas filled with
the background color, with the cropped source overlaid at the origin. -/
def make_sub_image (blend : Rgba → Rgba → Rgba) (img : Image) (rect : Rect)
    (background_color : Rgba) : FpcResult Image :=
  let new_image : Image := ⟨rect.width, rect.height, fun _ _ => background_color⟩
  let sub_image := crop_imm img rect.x rect.y rect.width rect.height
  .ok (overlayImage blend new_image sub_image)

/-- The per-cell body of the loop in `extract_images_from_image_grid`:
crop-and-composite, fit to constraints, round corners with radius
`((1.0 / 8.0) * 300.0) as u32`, final resample.  The `save` call is external
I/O, modelled as always succeeding. -/
def extract_loop (blend : Rgba → Rgba → Rgba)
    (resample : Image → Nat × Nat → Nat → Nat → Rgba)
    (img : Image) (aspect_ratio : ℚ) (max_width : Nat)
    (background_color : Rgba) :
    List (Nat × Rect) → List (Nat × Image) × FpcResult Unit
  | [] => ([], .ok ())
  | (i, rect) :: rest =>
    let step : FpcResult Image := do
      let new_image ← make_sub_image blend img rect background_color
      let scaled_image ← scale_to_constraints new_image
          (0, 0, new_image.width, new_image.height) aspect_ratio max_width
      let corner_radius := f64ToU32 ((1 / 8 : ℚ) * 300)
      let rounded_image ← round_the_corners scaled_image corner_radius
      .ok (rescale_to_72dpi_1in resample aspect_ratio rounded_image)
    match step with
    | .error e => ([], .error e)
    | .ok out =>
      let tail := extract_loop blend resample img aspect_ratio max_width
          background_color rest
      ((i, out) :: tail.1, tail.2)

/-- `extract_images_from_image_grid` (lib.rs).  The first component of the
result is the list of per-cell output files actually written, indexed by the
0-based cell number used in the file name `{stem}-{i}.png`; the second is the
function's `Result`.  (`output_debug_image` writes only the fixed-name debug
overlay, not a per-cell file.) -/
def extract_images_from_image_grid (blend : Rgba → Rgba → Rgba)
    (resample : Image → Nat × Nat → Nat → Nat → Rgba)
    (img : Image) (aspect_ratio : ℚ) (max_width : Nat)
    (background_color : Rgba) : List (Nat × Image) × FpcResult Unit :=
  match find_grid_cells img with
  | .error e => ([], .error e)
  | .ok cells =>
    extract_loop blend resample img aspect_ratio max_width background_color
      cells.enum

/-- The list of coordinates covered by a half-open `Range`. -/
def Range.toList (r : Range) : List Nat :=
  List.range' r.start (r.stop - r.start)

/-- The top-left corner quadrant processed by the first `round_a_corner`
call: `x ∈ 0..radius`, `y ∈ 0..radius`. -/
def inTopLeftQuad (radius x y : Nat) : Prop :=
  x < radius ∧ y < radius

/-- The top-right corner quadrant: `x ∈ width-radius..width`, `y ∈ 0..radius`. -/
def inTopRightQuad (img : Image) (radius x y : Nat) : Prop :=
  img.width - radius ≤ x ∧ x < img.width ∧ y < radius

/-- The bottom-left corner quadrant: `x ∈ 0..radius`,
`y ∈ height-radius..height`. -/
def inBottomLeftQuad (img : Image) (radius x y : Nat) : Prop :=
  x < radius ∧ img.height - radius ≤ y ∧ y < img.height

/-- The bottom-right corner quadrant: `x ∈ width-radius..width`,
`y ∈ height-radius..height`. -/
def inBottomRightQuad (img : Image) (radius x y : Nat) : Prop :=
  img.width - radius ≤ x ∧ x < img.width ∧ img.height - radius ≤ y ∧ y < img.height

/-! ### Concrete images used by witnesses and counterexamples -/

/-- A 13×13 image whose opaque pixels form a full grid: lines at rows and
columns 0, 4, 8, 12 (giving 3×3 cells of size 3×3). -/
def testGrid : Image :=
  ⟨13, 13, fun x y => if x % 4 = 0 ∨ y % 4 = 0 then ⟨9, 9, 9, 9⟩ else ⟨0, 0, 0, 0⟩⟩

/-- An 8×4 image whose opaque pixels were chosen so that, for the bounds
rectangle `⟨2, 0, 4, 4⟩`, the border-width scans of the source (column
`width/2 = 2`, absolute positions) and the scans described by the spec
(column `x + width/2 = 4`, distances from the bounds origin) disagree. -/
def imgShifted : Image :=
  ⟨8, 4, fun x y =>
    if (x = 2 ∧ y ≤ 2) ∨ (x = 4 ∧ (y = 0 ∨ y = 2)) ∨ (x = 5 ∧ y = 2)
    then ⟨9, 9, 9, 9⟩ else ⟨0, 0, 0, 0⟩⟩

/-- A 3×3 image whose center row is fully transparent but whose center column
is not: the top edge is locatable, the left edge is not. -/
def imgBlankCenterRow : Image :=
  ⟨3, 3, fun x y => if x = 1 ∧ y ≠ 1 then ⟨9, 9, 9, 9⟩ else ⟨0, 0, 0, 0⟩⟩

/-- A 3×3 fully transparent image. -/
def imgClear : Image :=
  ⟨3, 3, fun _ _ => ⟨0, 0, 0, 0⟩⟩

/-- A 3×10 image, fully opaque. -/
def imgTall : Image :=
  ⟨3, 10, fun _ _ => ⟨9, 9, 9, 9⟩⟩

/-- A 100×100 image, fully opaque. -/
def imgSquare100 : Image :=
  ⟨100, 100, fun _ _ => ⟨9, 9, 9, 9⟩⟩

/-- A 4×4 image with distinct pixels per coordinate (to detect any unexpected
pixel movement in witnesses). -/
def imgCoded4 : Image :=
  ⟨4, 4, fun x y => ⟨x, y, 0, 1 + x + y⟩⟩

/-- A trivial concrete resampling kernel for witnesses. -/
def zeroResample : Image → Nat × Nat → Nat → Nat → Rgba :=
  fun _ _ _ _ => ⟨0, 0, 0, 0⟩

/-- A trivial concrete blend for witnesses. -/
def zeroBlend : Rgba → Rgba → Rgba :=
  fun _ _ => ⟨0, 0, 0, 0⟩

/-! ### Infrastructure lemmas -/

theorem bind_ok {ε α β : Type} (x : Except ε α) (f : α → Except ε β) (b : β) :
    x >>= f = Except.ok b ↔ ∃ a, x = Except.ok a ∧ f a = Except.ok b := by
  cases x with
  | error e => simp [Bind.bind, Except.bind]
  | ok a => simp [Bind.bind, Except.bind]

theorem ok_or_ok {α : Type} (o : Option α) (e : FpcError) (a : α) :
    ok_or o e = .ok a ↔ o = some a := by
  cases o <;> simp [ok_or]

theorem scan_range_ok (l : List Nat) (p : Nat → Bool) (v : Nat) :
    scan_range l p = .ok v ↔ l.find? p = some v := by
  unfold scan_range
  exact ok_or_ok _ _ _

/-- `find?` on `range' a n` returns the least element of `[a, a+n)` satisfying
the predicate. -/
theorem find?_range'_some {p : Nat → Bool} :
    ∀ (n a m : Nat), (List.range' a n).find? p = some m →
      a ≤ m ∧ m < a + n ∧ p m = true ∧ ∀ k, a ≤ k → k < m → p k = false := by
  intro n
  induction n with
  | zero => intro a m h; simp [List.range'] at h
  | succ n ih =>
    intro a m h
    rw [List.range'_succ] at h
    by_cases hp : p a = true
    · rw [List.find?_cons_of_pos _ hp] at h
      injection h with h
      subst h
      exact ⟨Nat.le_refl _, by omega, hp, fun k hk1 hk2 => by omega⟩
    · rw [List.find?_cons_of_neg _ hp] at h
      obtain ⟨h1, h2, h3, h4⟩ := ih (a + 1) m h
      refine ⟨by omega, by omega, h3, ?_⟩
      intro k hk1 hk2
      rcases Nat.eq_or_lt_of_le hk1 with hk | hk
      · rw [Bool.not_eq_true] at hp
        rw [← hk]
        exact hp
      · exact h4 k hk hk2

/-- `find?` on the reversed `range' a n` returns the greatest element of
`[a, a+n)` satisfying the predicate. -/
theorem find?_range'_reverse_some {p : Nat → Bool} :
    ∀ (n a m : Nat), (List.range' a n).reverse.find? p = some m →
      a ≤ m ∧ m < a + n ∧ p m = true ∧ ∀ k, m < k → k < a + n → p k = false := by
  intro n
  induction n with
  | zero => intro a m h; simp [List.range'] at h
  | succ n ih =>
    intro a m h
    rw [List.range'_concat, List.reverse_append] at h
    simp only [List.reverse_cons, List.reverse_nil, List.nil_append, one_mul,
      List.singleton_append] at h
    by_cases hp : p (a + n) = true
    · rw [List.find?_cons_of_pos _ hp] at h
      injection h with h
      subst h
      exact ⟨by omega, by omega, hp, fun k hk1 hk2 => by omega⟩
    · rw [List.find?_cons_of_neg _ hp] at h
      obtain ⟨h1, h2, h3, h4⟩ := ih a m h
      refine ⟨h1, by omega, h3, ?_⟩
      intro k hk1 hk2
      by_cases hk : k = a + n
      · rw [Bool.not_eq_true] at hp
        rw [hk]
        exact hp
      · exact h4 k hk1 (by omega)

/-- A successful `find_bordered_bounds` returns a rectangle inside the
image with positive dimensions. -/
theorem find_bordered_bounds_ok_bounds (img : Image) (bb : Rect)
    (h : find_bordered_bounds img = .ok bb) :
    bb.x + bb.width ≤ img.width ∧ bb.y + bb.height ≤ img.height ∧
      1 ≤ bb.width ∧ 1 ≤ bb.height := by
  unfold find_bordered_bounds at h
  simp only [bind_ok, ok_or_ok, Except.ok.injEq] at h
  obtain ⟨left, hleft, right, hright, top, htop, bottom, hbottom, h⟩ := h
  rw [List.range_eq_range'] at hleft hright htop hbottom
  obtain ⟨-, hl2, hl3, hl4⟩ := find?_range'_some _ _ _ hleft
  obtain ⟨-, hr2, hr3, -⟩ := find?_range'_reverse_some _ _ _ hright
  obtain ⟨-, ht2, ht3, ht4⟩ := find?_range'_some _ _ _ htop
  obtain ⟨-, hb2, hb3, -⟩ := find?_range'_reverse_some _ _ _ hbottom
  have hlr : left ≤ right := by
    by_contra hc
    have := hl4 right (Nat.zero_le _) (by omega)
    rw [this] at hr3
    exact Bool.false_ne_true hr3
  have htb : top ≤ bottom := by
    by_contra hc
    have := ht4 bottom (Nat.zero_le _) (by omega)
    rw [this] at hb3
    exact Bool.false_ne_true hb3
  subst h
  dsimp only
  refine ⟨by omega, by omega, by omega, by omega⟩

/-! ### C2: border-width measurement -/

/-- C2 (counterexample): on the bounds rectangle `⟨2, 0, 4, 4⟩` of
`imgShifted`, the source `find_border_widths` (scan column `width/2 = 2`,
absolute first-blank positions) returns `(3, 3, 0, 0)`, while the behaviour
the claim describes (scan column `x + width/2 = 4`, distances from the bounds
origin) yields `(1, 1, 0, 0)`. -/
theorem find_border_widths_claim_counterexample :
    find_border_widths imgShifted ⟨2, 0, 4, 4⟩ = .ok (3, 3, 0, 0) ∧
    find_border_widths_spec imgShifted ⟨2, 0, 4, 4⟩ = .ok (1, 1, 0, 0) ∧
    ((3, 3, 0, 0) : Nat × Nat × Nat × Nat) ≠ (1, 1, 0, 0) := by
  refine ⟨by decide, by decide, by decide⟩

/-- C2 (amended): a successful `find_border_widths img bounds = ok (l,t,r,b)`
scans the column `bounds.width / 2` and the row `bounds.height / 2` (not
offset by the bounds origin): `t` (`l`) is the absolute coordinate of the
first blank pixel scanning down from `bounds.y` (right from `bounds.x`), and
`b` (`r`) converts the absolute position of the last blank pixel as
`(dimension - found_offset - 1)`. -/
theorem find_border_widths_ok_characterization (img : Image) (bounds : Rect)
    (l t r b : Nat)
    (h : find_border_widths img bounds = .ok (l, t, r, b)) :
    (bounds.y ≤ t ∧ t < bounds.y + bounds.height ∧
      transparent_pixel img (bounds.width / 2) t = true ∧
      ∀ yy, bounds.y ≤ yy → yy < t →
        transparent_pixel img (bounds.width / 2) yy = false) ∧
    (∃ bf, b = bounds.height - bf - 1 ∧ bounds.y ≤ bf ∧ bf < bounds.y + bounds.height ∧
      transparent_pixel img (bounds.width / 2) bf = true ∧
      ∀ yy, bf < yy → yy < bounds.y + bounds.height →
        transparent_pixel img (bounds.width / 2) yy = false) ∧
    (bounds.x ≤ l ∧ l < bounds.x + bounds.width ∧
      transparent_pixel img l (bounds.height / 2) = true ∧
      ∀ xx, bounds.x ≤ xx → xx < l →
        transparent_pixel img xx (bounds.height / 2) = false) ∧
    (∃ rf, r = bounds.width - rf - 1 ∧ bounds.x ≤ rf ∧ rf < bounds.x + bounds.width ∧
      transparent_pixel img rf (bounds.height / 2) = true ∧
      ∀ xx, rf < xx → xx < bounds.x + bounds.width →
        transparent_pixel img xx (bounds.height / 2) = false) := by
  unfold find_border_widths at h
  simp only [bind_ok, scan_range_ok, Except.ok.injEq, Prod.mk.injEq] at h
  obtain ⟨tv, htv, bv, hbv, lv, hlv, rv, hrv, hl, ht, hr, hb⟩ := h
  obtain ⟨ht1, ht2, ht3, ht4⟩ := find?_range'_some _ _ _ htv
  obtain ⟨hb1, hb2, hb3, hb4⟩ := find?_range'_reverse_some _ _ _ hbv
  obtain ⟨hl1, hl2, hl3, hl4⟩ := find?_range'_some _ _ _ hlv
  obtain ⟨hr1, hr2, hr3, hr4⟩ := find?_range'_reverse_some _ _ _ hrv
  subst hl
  subst ht
  subst hr
  subst hb
  exact ⟨⟨ht1, ht2, ht3, ht4⟩, ⟨bv, rfl, hb1, hb2, hb3, hb4⟩,
    ⟨hl1, hl2, hl3, hl4⟩, ⟨rv, rfl, hr1, hr2, hr3, hr4⟩⟩

/-- C2 witness: on `testGrid` with its bordered bounds `⟨0, 0, 13, 13⟩`,
`find_border_widths` succeeds with `(1, 1, 1, 1)` and the characterization
applies: the returned top thickness is a blank pixel position on the scan
column. -/
theorem find_border_widths_ok_characterization_witness :
    find_border_widths testGrid ⟨0, 0, 13, 13⟩ = .ok (1, 1, 1, 1) ∧
    transparent_pixel testGrid ((13 : Nat) / 2) 1 = true := by
  refine ⟨by decide, ?_⟩
  exact ((find_border_widths_ok_characterization testGrid ⟨0, 0, 13, 13⟩
    1 1 1 1 (by decide)).1).2.2.1

/-! ### C3: the left-edge scan failure is reported as "top" -/

/-- C3 (code evidence): on an image whose center row is all transparent but
whose center column is not (so the top edge is locatable while the left edge
is not), `find_bordered_bounds` fails on the forward horizontal (left-edge)
scan yet reports `MissingBorder "top"`; the second conjunct shows the forward
vertical (top-edge) scan would in fact succeed. -/
theorem find_bordered_bounds_left_scan_mislabeled :
    find_bordered_bounds imgBlankCenterRow = .error (.MissingBorder "top") ∧
    ((List.range imgBlankCenterRow.height).find?
        (fun yy => !transparent_pixel imgBlankCenterRow
          (imgBlankCenterRow.width / 2) yy)).isSome = true := by
  refine ⟨by decide, by decide⟩

/-! ### C9: all-transparent images -/

/-- C9: on an image all of whose pixels have alpha 0, `find_grid_cells` fails
with `MissingBorder` naming one of the four edges, and
`extract_images_from_image_grid` writes no per-cell output files. -/
theorem find_grid_cells_all_transparent (img : Image)
    (blend : Rgba → Rgba → Rgba)
    (resample : Image → Nat × Nat → Nat → Nat → Rgba)
    (aspect_ratio : ℚ) (max_width : Nat) (background_color : Rgba)
    (halpha : ∀ x y, (img.pix x y).a = 0) :
    (∃ edge, find_grid_cells img = .error (.MissingBorder edge) ∧
      (edge = "left" ∨ edge = "right" ∨ edge = "top" ∨ edge = "bottom")) ∧
    (extract_images_from_image_grid blend resample img aspect_ratio max_width
        background_color).1 = [] := by
  have hfind : (List.range img.width).find?
      (fun xx => !transparent_pixel img xx (img.height / 2)) = none := by
    rw [List.find?_eq_none]
    intro x _
    simp [transparent_pixel, halpha]
  have hbb : find_bordered_bounds img = .error (.MissingBorder "top") := by
    simp [find_bordered_bounds, hfind, ok_or, Bind.bind, Except.bind]
  have hcells : find_grid_cells img = .error (.MissingBorder "top") := by
    simp [find_grid_cells, hbb, Bind.bind, Except.bind]
  refine ⟨⟨"top", hcells, by simp⟩, ?_⟩
  unfold extract_images_from_image_grid
  rw [hcells]

/-- C9 witness: the 3×3 fully transparent image. -/
theorem find_grid_cells_all_transparent_witness :
    (∃ edge, find_grid_cells imgClear = .error (.MissingBorder edge) ∧
      (edge = "left" ∨ edge = "right" ∨ edge = "top" ∨ edge = "bottom")) ∧
    (extract_images_from_image_grid zeroBlend zeroResample imgClear 1 5
        ⟨9, 9, 9, 9⟩).1 = [] :=
  find_grid_cells_all_transparent imgClear zeroBlend zeroResample 1 5
    ⟨9, 9, 9, 9⟩ (fun _ _ => rfl)

/-! ### C5 and C6: the aspect-ratio fitter -/

/-- C5 (counterexample): with a 3×10 input, aspect ratio 1/2 and max width 3,
the shrink branch does not trigger and the code truncates
`3 * (1/2) = 1.5` to height 1, whereas rounding as the claim states would
give height 2. -/
theorem scale_to_constraints_round_counterexample :
    (scale_to_constraints imgTall (0, 0, 3, 10) (1 / 2 : ℚ) 3).map
        (fun out => (out.width, out.height)) = .ok (3, 1) ∧
    rround ((3 : ℚ) * (1 / 2)) = 2 ∧ (1 : Nat) ≠ 2 := by
  have hf : f64ToU32 (3 / 2 : ℚ) = 1 := by
    norm_num [f64ToU32, u32max] <;> decide
  refine ⟨?_, ?_, by decide⟩
  · norm_num [scale_to_constraints, crop_imm, Except.map, imgTall, hf]
  · norm_num [rround] <;> decide

/-- C5 (amended): when the shrink branch does not trigger (the computed
target height is at most the available height), `scale_to_constraints`
returns an image whose width is `min(available_width, max_width)` — hence at
most `max_width` — and whose height is `output_width * aspect_ratio`
truncated toward zero (not rounded). -/
theorem scale_to_constraints_no_shrink (img : Image) (aspect_ratio : ℚ)
    (max_width : Nat)
    (hns : f64ToU32 ((min img.width max_width : Nat) * aspect_ratio) ≤ img.height) :
    (scale_to_constraints img (0, 0, img.width, img.height) aspect_ratio
        max_width).map (fun out => (out.width, out.height)) =
      .ok (min img.width max_width,
        f64ToU32 ((min img.width max_width : Nat) * aspect_ratio)) ∧
    min img.width max_width ≤ max_width := by
  refine ⟨?_, min_le_right _ _⟩
  have hns' : ¬ (img.height <
      f64ToU32 ((min img.width max_width : Nat) * aspect_ratio)) :=
    not_lt.mpr hns
  have h1 : (img.width - min img.width max_width) / 2 ≤
      img.width - min img.width max_width := Nat.div_le_self _ _
  have h2 : (img.height -
        f64ToU32 ((min img.width max_width : Nat) * aspect_ratio)) / 2 ≤
      img.height - f64ToU32 ((min img.width max_width : Nat) * aspect_ratio) :=
    Nat.div_le_self _ _
  simp only [scale_to_constraints, crop_imm, if_neg hns', Except.map]
  simp only [Except.ok.injEq, Prod.mk.injEq]
  constructor <;> omega

/-- C6: when the shrink branch triggers (the computed target height strictly
exceeds the available height), the integer ratio
`available_height / target_height` truncates to 0, so the returned image has
width 0 and height 0. -/
theorem scale_to_constraints_shrink_zero (img : Image)
    (x y width height : Nat) (aspect_ratio : ℚ) (max_width : Nat)
    (hshrink : height < f64ToU32 ((min width max_width : Nat) * aspect_ratio)) :
    height / f64ToU32 ((min width max_width : Nat) * aspect_ratio) = 0 ∧
    (scale_to_constraints img (x, y, width, height) aspect_ratio
        max_width).map (fun out => (out.width, out.height)) = .ok (0, 0) := by
  have hdiv : height / f64ToU32 ((min width max_width : Nat) * aspect_ratio) = 0 :=
    Nat.div_eq_of_lt hshrink
  refine ⟨hdiv, ?_⟩
  simp only [scale_to_constraints, crop_imm, if_pos hshrink, hdiv,
    Nat.mul_zero, Except.map]
  simp only [Except.ok.injEq, Prod.mk.injEq]
  constructor <;> omega

/-- C5 witness: a 3×10 image, aspect ratio 1/2, max width 3: no shrink, the
output is 3×1 and 3 ≤ 3. -/
theorem scale_to_constraints_no_shrink_witness :
    f64ToU32 ((min imgTall.width 3 : Nat) * (1 / 2)) ≤ imgTall.height ∧
    ((scale_to_constraints imgTall (0, 0, imgTall.width, imgTall.height)
        (1 / 2) 3).map (fun out => (out.width, out.height)) =
      .ok (min imgTall.width 3, f64ToU32 ((min imgTall.width 3 : Nat) * (1 / 2))) ∧
      min imgTall.width 3 ≤ 3) :=
  ⟨by norm_num [f64ToU32, u32max, imgTall] <;> decide,
    scale_to_constraints_no_shrink imgTall (1 / 2) 3
      (by norm_num [f64ToU32, u32max, imgTall] <;> decide)⟩

/-- C6 witness: a 3×3 bounds with aspect ratio 10: the target height 30
exceeds 3, and the output is 0×0. -/
theorem scale_to_constraints_shrink_zero_witness :
    (3 : Nat) < f64ToU32 ((min 3 3 : Nat) * 10) ∧
    ((3 : Nat) / f64ToU32 ((min 3 3 : Nat) * 10) = 0 ∧
      (scale_to_constraints imgTall (0, 0, 3, 3) 10 3).map
        (fun out => (out.width, out.height)) = .ok (0, 0)) :=
  ⟨by norm_num [f64ToU32, u32max] <;> decide,
    scale_to_constraints_shrink_zero imgTall 0 0 3 3 10 3
      (by norm_num [f64ToU32, u32max] <;> decide)⟩

/-! ### C7: the output resampler -/

/-- `rround` of a natural number is itself. -/
theorem rround_natCast (n : Nat) : rround (n : ℚ) = n := by
  unfold rround
  rw [show ((n : ℚ) + 1 / 2) = (1 / 2 : ℚ) + (n : ℤ) by push_cast; ring,
    Int.floor_add_int]
  norm_num

/-- `rround` is monotone. -/
theorem rround_mono {a b : ℚ} (h : a ≤ b) : rround a ≤ rround b :=
  Int.toNat_le_toNat (Int.floor_le_floor (by linarith))

/-- When the source aspect ratio fits the target box on the width side
(`h * nw ≤ nh * w`), `resize_dimensions` scales by `nw / w`: the output width
is exactly `nw`, the output height `round(h * nw / w)` (at least 1). -/
theorem resize_dimensions_fit_width (w h nw nh : Nat)
    (hw : 1 ≤ w) (hh : 1 ≤ h) (hnw1 : 1 ≤ nw)
    (hnw : nw ≤ u32max) (hnh : nh ≤ u32max)
    (hfit : h * nw ≤ nh * w) :
    resize_dimensions w h nw nh = (nw, max (rround ((h : ℚ) * nw / w)) 1) := by
  have hw0 : (0 : ℚ) < w := by exact_mod_cast hw
  have hh0 : (0 : ℚ) < h := by exact_mod_cast hh
  have hfitq : (h : ℚ) * nw ≤ (nh : ℚ) * w := by exact_mod_cast hfit
  have hratio : (nw : ℚ) / w ≤ (nh : ℚ) / h := by
    rw [div_le_div_iff hw0 hh0]
    nlinarith
  have hmin : min ((nw : ℚ) / w) ((nh : ℚ) / h) = (nw : ℚ) / w :=
    min_eq_left hratio
  have hcancel : (w : ℚ) * ((nw : ℚ) / w) = nw := by
    field_simp
  have hhnw : (h : ℚ) * ((nw : ℚ) / w) = (h : ℚ) * nw / w := by
    ring
  have hhle : rround ((h : ℚ) * nw / w) ≤ nh := by
    have : (h : ℚ) * nw / w ≤ nh := by
      rw [div_le_iff hw0]
      nlinarith
    calc rround ((h : ℚ) * nw / w) ≤ rround (nh : ℚ) := rround_mono this
      _ = nh := rround_natCast nh
  simp only [resize_dimensions]
  rw [hmin, hcancel, hhnw, rround_natCast]
  have hmaxw : max nw 1 = nw := Nat.max_eq_left hnw1
  rw [hmaxw]
  have hno1 : ¬ (u32max < nw) := not_lt.mpr hnw
  rw [if_neg hno1]
  have hno2 : ¬ (u32max < max (rround ((h : ℚ) * nw / w)) 1) := by
    have h1u : 1 ≤ u32max := by decide
    have := hhle
    omega
  rw [if_neg hno2]

/-- C7 (counterexample): a square 100×100 input with aspect ratio 1/2: the
target box is 108×54, `resize` preserves the input aspect ratio and fits
within the box, so the output width is 54, not the fixed 108 the claim
states. -/
theorem rescale_to_72dpi_width_counterexample :
    (rescale_to_72dpi_1in zeroResample (1 / 2 : ℚ) imgSquare100).width = 54 ∧
    (54 : Nat) ≠ 108 := by
  have h108 : f64ToU32 ((3 / 2 : ℚ) * 72) = 108 := by
    norm_num [f64ToU32, u32max] <;> decide
  have h54 : f64ToU32 (54 : ℚ) = 54 := by
    norm_num [f64ToU32, u32max] <;> decide
  have hd : resize_dimensions 100 100 108 54 = (54, 54) := by
    have hmin : ((108 : ℚ) / 100) ⊓ ((54 : ℚ) / 100) = (54 : ℚ) / 100 := by
      rw [min_eq_right]
      norm_num
    simp only [resize_dimensions]
    norm_num [hmin, rround, u32max] <;> decide
  have hrw2 : rescale_to_72dpi_1in zeroResample (1 / 2) imgSquare100 =
      resize zeroResample imgSquare100 108 54 := by
    unfold rescale_to_72dpi_1in
    rw [h108]
    norm_num [h54]
  rw [hrw2, resize, if_neg (by decide)]
  refine ⟨?_, by decide⟩
  simp only [imgSquare100]
  rw [hd]

/-- C7 (amended): `rescale_to_72dpi_1in` resizes into the box
`108 × ((108 * aspect_ratio) as u32)` preserving the input image's own aspect
ratio (the image crate's `resize` fits within the box rather than resizing
exactly to it); the fixed width 108 is attained when the input is at least as
wide, relative to its height, as the box
(`height * 108 ≤ ((108 * aspect_ratio) as u32) * width`), and the output
height is then `round(height * 108 / width)` (at least 1). -/
theorem rescale_to_72dpi_fit (resample : Image → Nat × Nat → Nat → Nat → Rgba)
    (aspect_ratio : ℚ) (img : Image)
    (hw : 1 ≤ img.width) (hh : 1 ≤ img.height)
    (hfit : img.height * 108 ≤
      f64ToU32 ((108 : ℚ) * aspect_ratio) * img.width) :
    (rescale_to_72dpi_1in resample aspect_ratio img).width = 108 ∧
    (rescale_to_72dpi_1in resample aspect_ratio img).height =
      max (rround ((img.height : ℚ) * 108 / img.width)) 1 := by
  have h108 : f64ToU32 ((3 / 2 : ℚ) * 72) = 108 := by
    norm_num [f64ToU32, u32max] <;> decide
  have hH : f64ToU32 ((108 : ℚ) * aspect_ratio) ≤ u32max := min_le_right _ _
  have hrw : rescale_to_72dpi_1in resample aspect_ratio img =
      resize resample img 108 (f64ToU32 ((108 : ℚ) * aspect_ratio)) := by
    unfold rescale_to_72dpi_1in
    rw [h108]
    norm_num
  rw [hrw]
  by_cases heq : 108 = img.width ∧
      f64ToU32 ((108 : ℚ) * aspect_ratio) = img.height
  · rw [resize, if_pos heq]
    obtain ⟨hw108, hhH⟩ := heq
    refine ⟨hw108.symm, ?_⟩
    rw [← hw108]
    push_cast
    have hdiv : (img.height : ℚ) * 108 / 108 = (img.height : ℚ) := by
      field_simp
    rw [hdiv, rround_natCast]
    exact (Nat.max_eq_left hh).symm
  · rw [resize, if_neg heq]
    rw [resize_dimensions_fit_width img.width img.height 108
      (f64ToU32 ((108 : ℚ) * aspect_ratio)) hw hh (by omega) (by decide) hH hfit]
    dsimp only
    refine ⟨rfl, ?_⟩
    norm_num

/-- C7 witness: a 100×100 input with aspect ratio 2 (box 108×216): the fit
hypothesis holds and the output is 108×108. -/
theorem rescale_to_72dpi_fit_witness :
    (1 ≤ imgSquare100.width ∧ 1 ≤ imgSquare100.height ∧
      imgSquare100.height * 108 ≤
        f64ToU32 ((108 : ℚ) * 2) * imgSquare100.width) ∧
    ((rescale_to_72dpi_1in zeroResample 2 imgSquare100).width = 108 ∧
      (rescale_to_72dpi_1in zeroResample 2 imgSquare100).height =
        max (rround ((imgSquare100.height : ℚ) * 108 / imgSquare100.width)) 1) :=
  ⟨⟨by decide, by decide, by norm_num [f64ToU32, u32max, imgSquare100] <;> decide⟩,
    rescale_to_72dpi_fit zeroResample 2 imgSquare100 (by decide) (by decide)
      (by norm_num [f64ToU32, u32max, imgSquare100] <;> decide)⟩

/-! ### C4: group_sequences -/

theorem range_toList_single (i : Nat) : Range.toList ⟨i, i + 1⟩ = [i] := by
  unfold Range.toList
  rw [Nat.add_sub_cancel_left]
  simp [List.range']

theorem range_toList_snoc (r : Range) (h : r.start ≤ r.stop) :
    Range.toList ⟨r.start, r.stop + 1⟩ = Range.toList r ++ [r.stop] := by
  unfold Range.toList
  have h1 : r.stop + 1 - r.start = (r.stop - r.start) + 1 := by omega
  have h2 : r.start + 1 * (r.stop - r.start) = r.stop := by omega
  rw [h1, List.range'_concat, h2]

/-- The fold invariant of `group_sequences`: starting from a valid, gapped
accumulator whose last range ends no later than the next input coordinate,
folding a strictly increasing coordinate list appends exactly those
coordinates, keeps every range non-empty, and keeps consecutive ranges
separated by a gap. -/
theorem group_sequences_aux :
    ∀ (l : List Nat) (acc : List Range),
      List.Chain' (· < ·) l →
      (∀ r ∈ acc, r.start < r.stop) →
      List.Chain' (fun a b => a.stop < b.start) acc →
      (∀ r, acc.getLast? = some r → ∀ i, l.head? = some i → r.stop ≤ i) →
      (∀ r ∈ l.foldl groupStep acc, r.start < r.stop) ∧
      List.Chain' (fun a b => a.stop < b.start) (l.foldl groupStep acc) ∧
      (l.foldl groupStep acc).flatMap Range.toList =
        acc.flatMap Range.toList ++ l := by
  intro l
  induction l with
  | nil =>
    intro acc _ hval hchain _
    exact ⟨hval, hchain, by simp⟩
  | cons i rest ih =>
    intro acc hl hval hchain hlast
    rw [List.foldl_cons]
    have hrest : List.Chain' (· < ·) rest := hl.tail
    have hheadlt : ∀ j, rest.head? = some j → i < j := by
      intro j hj
      exact (List.chain'_cons'.mp hl).1 j hj
    rcases List.eq_nil_or_concat acc with rfl | ⟨front, rl, hacc⟩
    · have hstep : groupStep [] i = [⟨i, i + 1⟩] := by
        simp [groupStep]
      rw [hstep]
      obtain ⟨ih1, ih2, ih3⟩ := ih [⟨i, i + 1⟩] hrest
        (by simp) (by simp)
        (by
          intro r hr j hj
          simp at hr
          subst hr
          exact hheadlt j hj)
      refine ⟨ih1, ih2, ?_⟩
      rw [ih3]
      simp [range_toList_single]
    · rw [List.concat_eq_append] at hacc
      subst hacc
      have hvalrl : rl.start < rl.stop := hval rl (by simp)
      have hchain' := List.chain'_append.mp hchain
      by_cases hbe : rl.stop = i
      · have hstep : groupStep (front ++ [rl]) i =
            front ++ [⟨rl.start, rl.stop + 1⟩] := by
          simp [groupStep, List.getLast?_concat, hbe, List.dropLast_concat]
        rw [hstep]
        obtain ⟨ih1, ih2, ih3⟩ := ih (front ++ [⟨rl.start, rl.stop + 1⟩]) hrest
          (by
            intro r hr
            rcases List.mem_append.mp hr with hr | hr
            · exact hval r (List.mem_append_left [rl] hr)
            · simp at hr
              subst hr
              dsimp only
              omega)
          (by
            refine List.chain'_append.mpr ⟨hchain'.1, List.chain'_singleton _, ?_⟩
            intro x hx y hy
            simp at hy
            subst hy
            exact hchain'.2.2 x hx rl (by simp))
          (by
            intro r hr j hj
            rw [List.getLast?_concat] at hr
            injection hr with hr
            subst hr
            dsimp only
            have := hheadlt j hj
            omega)
        refine ⟨ih1, ih2, ?_⟩
        rw [ih3, List.flatMap_append, List.flatMap_append]
        simp only [List.flatMap_cons, List.flatMap_nil, List.append_nil]
        rw [range_toList_snoc rl (Nat.le_of_lt hvalrl), hbe]
        simp [List.append_assoc]
      · have hgap : rl.stop < i := by
          have := hlast rl (List.getLast?_concat _) i rfl
          omega
        have hstep : groupStep (front ++ [rl]) i =
            (front ++ [rl]) ++ [⟨i, i + 1⟩] := by
          simp [groupStep, List.getLast?_concat, hbe]
        rw [hstep]
        obtain ⟨ih1, ih2, ih3⟩ := ih ((front ++ [rl]) ++ [⟨i, i + 1⟩]) hrest
          (by
            intro r hr
            rcases List.mem_append.mp hr with hr | hr
            · exact hval r hr
            · simp at hr
              subst hr
              dsimp only
              omega)
          (by
            refine List.chain'_append.mpr ⟨hchain, List.chain'_singleton _, ?_⟩
            intro x hx y hy
            rw [List.getLast?_concat] at hx
            simp at hx hy
            subst hx
            subst hy
            exact hgap)
          (by
            intro r hr j hj
            rw [List.getLast?_concat] at hr
            injection hr with hr
            subst hr
            dsimp only
            have := hheadlt j hj
            omega)
        refine ⟨ih1, ih2, ?_⟩
        rw [ih3, List.flatMap_append]
        simp only [List.flatMap_cons, List.flatMap_nil, List.append_nil]
        rw [range_toList_single]
        simp [List.append_assoc]

/-- C4: on a strictly increasing coordinate list, `group_sequences` returns
exactly the maximal contiguous runs as half-open ranges: concatenating the
ranges' elements in order reproduces the input, every range is non-empty
(`start < stop`), consecutive ranges satisfy `previous.stop < next.start`
(ascending, non-overlapping, non-adjacent, so each run is maximal), and the
empty input yields the empty list. -/
theorem group_sequences_spec (l : List Nat)
    (hl : List.Chain' (· < ·) l) :
    (group_sequences l).flatMap Range.toList = l ∧
    (∀ r ∈ group_sequences l, r.start < r.stop) ∧
    List.Chain' (fun a b => a.stop < b.start) (group_sequences l) ∧
    group_sequences ([] : List Nat) = [] := by
  obtain ⟨h1, h2, h3⟩ := group_sequences_aux l [] hl (by simp) (by simp)
    (by intro r hr; simp at hr)
  exact ⟨by simpa using h3, h1, h2, rfl⟩

/-- C4 witness: the coordinates `[0, 1, 2, 5, 6, 9]` are strictly increasing
and group into `[0..3, 5..7, 9..10]`, which flatten back to the input. -/
theorem group_sequences_spec_witness :
    List.Chain' (· < ·) [0, 1, 2, 5, 6, 9] ∧
    (group_sequences [0, 1, 2, 5, 6, 9]).flatMap Range.toList =
      [0, 1, 2, 5, 6, 9] ∧
    group_sequences [0, 1, 2, 5, 6, 9] = [⟨0, 3⟩, ⟨5, 7⟩, ⟨9, 10⟩] :=
  ⟨by simp [List.chain'_cons], (group_sequences_spec [0, 1, 2, 5, 6, 9]
    (by simp [List.chain'_cons])).1, by decide⟩

/-! ### C8: the corner rounder -/

/-- C8: for `radius ≤ min(width, height)/2`, `round_the_corners` returns an
image of the same dimensions; pixels outside the four radius-by-radius corner
quadrants are unchanged; the quadrants are pairwise disjoint; and inside each
quadrant a pixel becomes all-channels-zero exactly when its squared distance
from that corner's quarter-circle center strictly exceeds `radius²` (pixels
at squared distance equal to `radius²` are unchanged). -/
theorem round_the_corners_spec (img : Image) (radius : Nat)
    (hrad : radius ≤ min img.width img.height / 2) :
    ∃ out, round_the_corners img radius = .ok out ∧
      ((out.width = img.width ∧ out.height = img.height) ∧
      (∀ x y, ¬ inTopLeftQuad radius x y → ¬ inTopRightQuad img radius x y →
        ¬ inBottomLeftQuad img radius x y → ¬ inBottomRightQuad img radius x y →
        out.pix x y = img.pix x y) ∧
      (∀ x y,
        ¬ (inTopLeftQuad radius x y ∧ inTopRightQuad img radius x y) ∧
        ¬ (inTopLeftQuad radius x y ∧ inBottomLeftQuad img radius x y) ∧
        ¬ (inTopLeftQuad radius x y ∧ inBottomRightQuad img radius x y) ∧
        ¬ (inTopRightQuad img radius x y ∧ inBottomLeftQuad img radius x y) ∧
        ¬ (inTopRightQuad img radius x y ∧ inBottomRightQuad img radius x y) ∧
        ¬ (inBottomLeftQuad img radius x y ∧ inBottomRightQuad img radius x y)) ∧
      (∀ x y, inTopLeftQuad radius x y →
        out.pix x y = if radius * radius < sq_dist radius radius x y
          then ⟨0, 0, 0, 0⟩ else img.pix x y) ∧
      (∀ x y, inTopRightQuad img radius x y →
        out.pix x y = if radius * radius <
            sq_dist (img.width - radius) radius x y
          then ⟨0, 0, 0, 0⟩ else img.pix x y) ∧
      (∀ x y, inBottomLeftQuad img radius x y →
        out.pix x y = if radius * radius <
            sq_dist radius (img.height - radius) x y
          then ⟨0, 0, 0, 0⟩ else img.pix x y) ∧
      (∀ x y, inBottomRightQuad img radius x y →
        out.pix x y = if radius * radius <
            sq_dist (img.width - radius) (img.height - radius) x y
          then ⟨0, 0, 0, 0⟩ else img.pix x y)) := by
  refine ⟨_, rfl, ⟨rfl, rfl⟩, ?_, ?_, ?_, ?_, ?_, ?_⟩
  · intro x y h1 h2 h3 h4
    simp only [inTopLeftQuad] at h1
    simp only [inTopRightQuad] at h2
    simp only [inBottomLeftQuad] at h3
    simp only [inBottomRightQuad] at h4
    simp only [round_the_corners, round_a_corner]
    dsimp only
    rw [if_neg (fun hc => h4 ⟨hc.1, hc.2.1, hc.2.2.1, hc.2.2.2.1⟩),
      if_neg (fun hc => h3 ⟨hc.2.1, hc.2.2.1, hc.2.2.2.1⟩),
      if_neg (fun hc => h2 ⟨hc.1, hc.2.1, hc.2.2.2.1⟩),
      if_neg (fun hc => h1 ⟨hc.2.1, hc.2.2.2.1⟩)]
  · intro x y
    simp only [inTopLeftQuad, inTopRightQuad, inBottomLeftQuad,
      inBottomRightQuad]
    and_intros <;> omega
  · intro x y hq
    simp only [inTopLeftQuad] at hq
    obtain ⟨hqx, hqy⟩ := hq
    have hx1 : ¬ (img.width - radius ≤ x) := by omega
    have hy1 : ¬ (img.height - radius ≤ y) := by omega
    simp only [round_the_corners, round_a_corner]
    dsimp only
    rw [if_neg (fun hc => hx1 hc.1), if_neg (fun hc => hy1 hc.2.2.1),
      if_neg (fun hc => hx1 hc.1)]
    by_cases hd : radius * radius < sq_dist radius radius x y
    · rw [if_pos ⟨Nat.zero_le _, hqx, Nat.zero_le _, hqy, hd⟩, if_pos hd]
    · rw [if_neg (fun hc => hd hc.2.2.2.2), if_neg hd]
  · intro x y hq
    simp only [inTopRightQuad] at hq
    obtain ⟨hqx1, hqx2, hqy⟩ := hq
    have hx2 : ¬ (x < radius) := by omega
    have hy1 : ¬ (img.height - radius ≤ y) := by omega
    simp only [round_the_corners, round_a_corner]
    dsimp only
    rw [if_neg (fun hc => hy1 hc.2.2.1), if_neg (fun hc => hx2 hc.2.1)]
    by_cases hd : radius * radius < sq_dist (img.width - radius) radius x y
    · rw [if_pos ⟨hqx1, hqx2, Nat.zero_le _, hqy, hd⟩, if_pos hd]
    · rw [if_neg (fun hc => hd hc.2.2.2.2), if_neg (fun hc => hx2 hc.2.1),
        if_neg hd]
  · intro x y hq
    simp only [inBottomLeftQuad] at hq
    obtain ⟨hqx, hqy1, hqy2⟩ := hq
    have hx1 : ¬ (img.width - radius ≤ x) := by omega
    have hy2 : ¬ (y < radius) := by omega
    simp only [round_the_corners, round_a_corner]
    dsimp only
    rw [if_neg (fun hc => hx1 hc.1)]
    by_cases hd : radius * radius < sq_dist radius (img.height - radius) x y
    · rw [if_pos ⟨Nat.zero_le _, hqx, hqy1, hqy2, hd⟩, if_pos hd]
    · rw [if_neg (fun hc => hd hc.2.2.2.2),
        if_neg (fun hc => hy2 hc.2.2.2.1),
        if_neg (fun hc => hy2 hc.2.2.2.1), if_neg hd]
  · intro x y hq
    simp only [inBottomRightQuad] at hq
    obtain ⟨hqx1, hqx2, hqy1, hqy2⟩ := hq
    have hx2 : ¬ (x < radius) := by omega
    have hy2 : ¬ (y < radius) := by omega
    simp only [round_the_corners, round_a_corner]
    dsimp only
    by_cases hd : radius * radius <
        sq_dist (img.width - radius) (img.height - radius) x y
    · rw [if_pos ⟨hqx1, hqx2, hqy1, hqy2, hd⟩, if_pos hd]
    · rw [if_neg (fun hc => hd hc.2.2.2.2),
        if_neg (fun hc => hx2 hc.2.1),
        if_neg (fun hc => hy2 hc.2.2.2.1),
        if_neg (fun hc => hx2 hc.2.1), if_neg hd]

/-- C8 witness: the 4×4 image with radius 2 (= min(4,4)/2). -/
theorem round_the_corners_spec_witness :
    2 ≤ min imgCoded4.width imgCoded4.height / 2 ∧
    ∃ out, round_the_corners imgCoded4 2 = .ok out ∧
      out.width = imgCoded4.width ∧ out.height = imgCoded4.height := by
  refine ⟨by decide, ?_⟩
  obtain ⟨out, h1, h2, -⟩ := round_the_corners_spec imgCoded4 2 (by decide)
  exact ⟨out, h1, h2⟩

/-! ### C1: row-major cell generation -/

theorem length_flatMap_const {α β : Type} (g : α → List β) (m : Nat) :
    ∀ L : List α, (∀ a ∈ L, (g a).length = m) →
      (L.flatMap g).length = L.length * m := by
  intro L
  induction L with
  | nil => intro _; simp
  | cons a L ih =>
    intro h
    simp only [List.flatMap_cons, List.length_append, List.length_cons]
    rw [ih (fun b hb => h b (List.mem_cons_of_mem a hb)),
      h a (List.mem_cons_self a L)]
    ring

theorem zip_tail_length {α : Type} (l : List α) :
    (l.zip l.tail).length = l.length - 1 := by
  rw [List.length_zip, List.length_tail]
  omega

theorem zip_tail_getElem? {α : Type} (l : List α) (i : Nat) (a b : α)
    (h1 : l[i]? = some a) (h2 : l[i + 1]? = some b) :
    (l.zip l.tail)[i]? = some (a, b) := by
  rw [List.getElem?_zip_eq_some]
  refine ⟨h1, ?_⟩
  rw [List.getElem?_tail]
  exact h2

theorem flatMap_getElem?_const {α β : Type} (g : α → List β) (m : Nat) :
    ∀ (L : List α) (i j : Nat), (∀ a ∈ L, (g a).length = m) → j < m →
      (L.flatMap g)[i * m + j]? = Option.bind L[i]? (fun a => (g a)[j]?) := by
  intro L
  induction L with
  | nil => intro i j _ _; simp
  | cons a L ih =>
    intro i j hlen hj
    have hlena : (g a).length = m := hlen a (List.mem_cons_self a L)
    rw [List.flatMap_cons]
    cases i with
    | zero =>
      rw [Nat.zero_mul, Nat.zero_add, List.getElem?_append,
        if_pos (by rw [hlena]; exact hj)]
      simp
    | succ i =>
      rw [Nat.succ_mul]
      have hle : (g a).length ≤ i * m + m + j := by
        rw [hlena]
        generalize i * m = t
        omega
      rw [List.getElem?_append_right hle, hlena]
      have hidx : i * m + m + j - m = i * m + j := by
        generalize i * m = t
        omega
      rw [hidx, ih i j (fun b hb => hlen b (List.mem_cons_of_mem a hb)) hj]
      simp

/-- C1: `find_grid_cells` produces exactly the `gridRects` double loop over
its computed horizontal and vertical grid-line ranges; and for arbitrary
range lists the double loop emits one cell
`Rect(left.stop, top.stop, right.start - left.stop, bottom.start - top.stop)`
per consecutive horizontal pair and consecutive vertical pair, in row-major
order (cell `(i, j)` sits at index `i * (columns) + j`, the outer index
running over horizontal pairs top to bottom, the inner over vertical pairs
left to right). -/
theorem find_grid_cells_row_major :
    (∀ (img : Image) (bb : Rect) (ws : Nat × Nat × Nat × Nat),
      find_bordered_bounds img = .ok bb →
      find_border_widths img bb = .ok ws →
      find_grid_cells img = .ok (gridRects
        (horiz_grid_line_ranges img bb (inside_border_bounds bb ws))
        (vert_grid_line_ranges img bb (inside_border_bounds bb ws)))) ∧
    (∀ (horiz vert : List Range),
      (gridRects horiz vert).length = (horiz.length - 1) * (vert.length - 1) ∧
      ∀ (i j : Nat) (top bottom left right : Range),
        horiz[i]? = some top → horiz[i + 1]? = some bottom →
        vert[j]? = some left → vert[j + 1]? = some right →
        (gridRects horiz vert)[i * (vert.length - 1) + j]? =
          some ⟨left.stop, top.stop, right.start - left.stop,
            bottom.start - top.stop⟩) := by
  constructor
  · intro img bb ws h1 h2
    simp [find_grid_cells, h1, h2, Bind.bind, Except.bind]
  · intro horiz vert
    constructor
    · unfold gridRects
      rw [length_flatMap_const _ (vert.length - 1) _
        (fun a _ => by rw [List.length_map, zip_tail_length]),
        zip_tail_length]
    · intro i j top bottom left right ht hb hl hr
      have hj : j < vert.length - 1 := by
        obtain ⟨hlt, -⟩ := List.getElem?_eq_some.mp hr
        omega
      unfold gridRects
      rw [flatMap_getElem?_const _ (vert.length - 1) _ i j
        (fun a _ => by rw [List.length_map, zip_tail_length]) hj]
      rw [zip_tail_getElem? horiz i top bottom ht hb, Option.some_bind,
        List.getElem?_map, zip_tail_getElem? vert j left right hl hr]
      rfl

/-- C1 witness: on `testGrid` both scans yield the four line ranges
`[0..1, 4..5, 8..9, 12..13]`; the loop gives 9 cells and cell `(1, 2)` sits
at row-major index 5 with the stated geometry. -/
theorem find_grid_cells_row_major_witness :
    (find_bordered_bounds testGrid = .ok ⟨0, 0, 13, 13⟩ ∧
      find_border_widths testGrid ⟨0, 0, 13, 13⟩ = .ok (1, 1, 1, 1)) ∧
    find_grid_cells testGrid = .ok (gridRects
      (horiz_grid_line_ranges testGrid ⟨0, 0, 13, 13⟩
        (inside_border_bounds ⟨0, 0, 13, 13⟩ (1, 1, 1, 1)))
      (vert_grid_line_ranges testGrid ⟨0, 0, 13, 13⟩
        (inside_border_bounds ⟨0, 0, 13, 13⟩ (1, 1, 1, 1)))) ∧
    (gridRects [⟨0, 1⟩, ⟨4, 5⟩, ⟨8, 9⟩, ⟨12, 13⟩]
      [⟨0, 1⟩, ⟨4, 5⟩, ⟨8, 9⟩, ⟨12, 13⟩]).length = 9 ∧
    (gridRects [⟨0, 1⟩, ⟨4, 5⟩, ⟨8, 9⟩, ⟨12, 13⟩]
      [⟨0, 1⟩, ⟨4, 5⟩, ⟨8, 9⟩, ⟨12, 13⟩])[(5 : Nat)]? =
      some ⟨9, 5, 3, 3⟩ := by
  refine ⟨⟨by decide, by decide⟩, ?_, ?_, ?_⟩
  · exact find_grid_cells_row_major.1 testGrid ⟨0, 0, 13, 13⟩ (1, 1, 1, 1)
      (by decide) (by decide)
  · rw [(find_grid_cells_row_major.2 [⟨0, 1⟩, ⟨4, 5⟩, ⟨8, 9⟩, ⟨12, 13⟩]
      [⟨0, 1⟩, ⟨4, 5⟩, ⟨8, 9⟩, ⟨12, 13⟩]).1]
    decide
  · have := (find_grid_cells_row_major.2 [⟨0, 1⟩, ⟨4, 5⟩, ⟨8, 9⟩, ⟨12, 13⟩]
      [⟨0, 1⟩, ⟨4, 5⟩, ⟨8, 9⟩, ⟨12, 13⟩]).2 1 2 ⟨4, 5⟩ ⟨8, 9⟩ ⟨8, 9⟩ ⟨12, 13⟩
      (by decide) (by decide) (by decide) (by decide)
    simpa using this

/-! ### C10: cell invariants -/

theorem find_pixels_eq_filter (range : List Nat) (p : Nat → Bool) :
    find_pixels range p = range.filter p := by
  unfold find_pixels
  induction range with
  | nil => rfl
  | cons a l ih =>
    rw [List.filterMap_cons, List.filter_cons]
    by_cases h : p a = true <;> simp [h, ih]

theorem chain'_zip_tail {α : Type} {R : α → α → Prop} :
    ∀ (l : List α) (a b : α), (a, b) ∈ l.zip l.tail → l.Chain' R →
      R a b ∧ a ∈ l ∧ b ∈ l := by
  intro l
  induction l with
  | nil => intro a b h _; simp at h
  | cons x xs ih =>
    intro a b h hc
    cases xs with
    | nil => simp at h
    | cons y ys =>
      simp only [List.tail_cons, List.zip_cons_cons, List.mem_cons,
        Prod.mk.injEq] at h
      rcases h with ⟨rfl, rfl⟩ | h
      · exact ⟨(List.chain'_cons.mp hc).1, by simp, by simp⟩
      · obtain ⟨hr, ha, hb⟩ := ih a b (by simpa using h)
          (List.chain'_cons.mp hc).2
        exact ⟨hr, List.mem_cons_of_mem _ ha, List.mem_cons_of_mem _ hb⟩

/-- Every range produced by the grid-line segmenter over `[lo, lo+n)` is a
non-empty subrange of `[lo, lo+n]`, and consecutive ranges are separated by a
gap. -/
theorem find_grid_line_ranges_spec (lo n : Nat) (is_blank : Nat → Bool) :
    (∀ r ∈ find_grid_line_ranges (List.range' lo n) is_blank,
      lo ≤ r.start ∧ r.stop ≤ lo + n ∧ r.start < r.stop) ∧
    List.Chain' (fun a b => a.stop < b.start)
      (find_grid_line_ranges (List.range' lo n) is_blank) := by
  unfold find_grid_line_ranges
  have hsub : (find_pixels (List.range' lo n) (fun i => !is_blank i)).Sublist
      (List.range' lo n) := by
    rw [find_pixels_eq_filter]
    exact List.filter_sublist _
  have hchainR : List.Chain' (· < ·)
      (find_pixels (List.range' lo n) (fun i => !is_blank i)) :=
    (List.Pairwise.sublist hsub (List.pairwise_lt_range' lo n)).chain'
  obtain ⟨hval, hchain, hflat⟩ := group_sequences_aux
    (find_pixels (List.range' lo n) (fun i => !is_blank i)) [] hchainR
    (by simp) (by simp) (by intro r hr; simp at hr)
  rw [List.nil_flatMap, List.nil_append] at hflat
  refine ⟨?_, hchain⟩
  intro r hr
  have hv := hval r hr
  have h1 : r.start ∈ Range.toList r := by
    unfold Range.toList
    rw [List.mem_range'_1]
    omega
  have h2 : r.stop - 1 ∈ Range.toList r := by
    unfold Range.toList
    rw [List.mem_range'_1]
    omega
  have hm1 : r.start ∈ List.range' lo n :=
    hsub.subset (hflat ▸ List.mem_flatMap.mpr ⟨r, hr, h1⟩)
  have hm2 : r.stop - 1 ∈ List.range' lo n :=
    hsub.subset (hflat ▸ List.mem_flatMap.mpr ⟨r, hr, h2⟩)
  rw [List.mem_range'_1] at hm1 hm2
  exact ⟨by omega, by omega, hv⟩

/-- C10: every `Rect` returned by a successful `find_grid_cells` satisfies
`x + width ≤ image.width`, `y + height ≤ image.height`, `width ≥ 1` and
`height ≥ 1`; since the cell width is the truncated difference
`right.start - left.stop`, `width ≥ 1` shows the subtraction never
underflows (and similarly for the height). -/
theorem find_grid_cells_invariants (img : Image) (rects : List Rect)
    (h : find_grid_cells img = .ok rects) :
    ∀ r ∈ rects, r.x + r.width ≤ img.width ∧ r.y + r.height ≤ img.height ∧
      1 ≤ r.width ∧ 1 ≤ r.height := by
  unfold find_grid_cells at h
  simp only [bind_ok, Except.ok.injEq] at h
  obtain ⟨bb, hbb, ws, hws, hcells⟩ := h
  obtain ⟨hbw, hbh, -, -⟩ := find_bordered_bounds_ok_bounds img bb hbb
  obtain ⟨hvmem, hvchain⟩ := find_grid_line_ranges_spec bb.x bb.width
    (fun xx => transparent_pixel img xx (inside_border_bounds bb ws).y)
  obtain ⟨hhmem, hhchain⟩ := find_grid_line_ranges_spec bb.y bb.height
    (fun yy => transparent_pixel img (inside_border_bounds bb ws).x yy)
  subst hcells
  intro r hr
  unfold gridRects at hr
  rw [List.mem_flatMap] at hr
  obtain ⟨tb, htb, hr⟩ := hr
  rw [List.mem_map] at hr
  obtain ⟨lr, hlr, hreq⟩ := hr
  obtain ⟨htbR, htb1, htb2⟩ := chain'_zip_tail _ tb.1 tb.2 htb hhchain
  obtain ⟨hlrR, hlr1, hlr2⟩ := chain'_zip_tail _ lr.1 lr.2 hlr hvchain
  obtain ⟨ht1a, ht1b, ht1c⟩ := hhmem tb.1 htb1
  obtain ⟨ht2a, ht2b, ht2c⟩ := hhmem tb.2 htb2
  obtain ⟨hl1a, hl1b, hl1c⟩ := hvmem lr.1 hlr1
  obtain ⟨hl2a, hl2b, hl2c⟩ := hvmem lr.2 hlr2
  subst hreq
  refine ⟨?_, ?_, ?_, ?_⟩ <;> dsimp only <;> omega

/-- C10 witness: the nine cells detected on `testGrid` are inside the 13×13
image with positive dimensions. -/
theorem find_grid_cells_invariants_witness :
    find_grid_cells testGrid = .ok
      [⟨1, 1, 3, 3⟩, ⟨5, 1, 3, 3⟩, ⟨9, 1, 3, 3⟩,
       ⟨1, 5, 3, 3⟩, ⟨5, 5, 3, 3⟩, ⟨9, 5, 3, 3⟩,
       ⟨1, 9, 3, 3⟩, ⟨5, 9, 3, 3⟩, ⟨9, 9, 3, 3⟩] ∧
    ∀ r ∈ [(⟨1, 1, 3, 3⟩ : Rect), ⟨5, 1, 3, 3⟩, ⟨9, 1, 3, 3⟩,
       ⟨1, 5, 3, 3⟩, ⟨5, 5, 3, 3⟩, ⟨9, 5, 3, 3⟩,
       ⟨1, 9, 3, 3⟩, ⟨5, 9, 3, 3⟩, ⟨9, 9, 3, 3⟩],
      r.x + r.width ≤ testGrid.width ∧ r.y + r.height ≤ testGrid.height ∧
      1 ≤ r.width ∧ 1 ≤ r.height := by
  refine ⟨by decide, ?_⟩
  exact find_grid_cells_invariants testGrid _ (by decide)

end Fpc
